import Mathlib

/-!
Verification of the GIF89a encoder in `simple_gif.py` (class `GIFEncoder`)
against its natural-language specification.

The Python source is shallowly embedded below: bytes are `Nat` (values < 256
where relevant), byte buffers are `List Nat`, Python `dict` lookups that can
raise become `Option`, and calls that can raise exceptions return
`Except String`.  Each definition mirrors one Python function or code block;
the doc comment of each definition names its source.
-/

set_option maxRecDepth 400000

namespace SimpleGif

/-- The helper `get_level` — the inner helper of the effective (second)
`_map_pixels_to_palette` definition: buckets a channel value into one of six
levels with thresholds 26, 77, 128, 179, 230 (strict `<` comparisons). -/
def get_level (v : Nat) : Nat :=
  if v < 26 then 0
  else if v < 77 then 1
  else if v < 128 then 2
  else if v < 179 then 3
  else if v < 230 then 4
  else 5

/-- The per-pixel index computation `get_level(r)*36 + get_level(g)*6 +
get_level(b)` from the body of `_map_pixels_to_palette` (alpha is never
read). -/
def quantize (r g b : Nat) : Nat :=
  get_level r * 36 + get_level g * 6 + get_level b

/-- The effective `_map_pixels_to_palette(self, pixels)` (the second, later
definition in the class body, which overrides the earlier flag-aware one):
iterates `for i in range(0, len(pixels), 4)` reading `pixels[i]`,
`pixels[i+1]`, `pixels[i+2]`.  A trailing group of one or two bytes makes
`pixels[i+1]` / `pixels[i+2]` raise IndexError (`none` here); a trailing
group of exactly three bytes still yields an index since the alpha byte is
never read. -/
def mapPixelsToPalette : List Nat → Option (List Nat)
  | [] => some []
  | [r, g, b] => some [quantize r g b]
  | r :: g :: b :: _a :: rest =>
      (mapPixelsToPalette rest).map (fun l => quantize r g b :: l)
  | _ => none

/-- The call `np.searchsorted(thresholds, v)` with the default left side on
the sorted array `[26, 77, 128, 179, 230]`: the left insertion point, i.e. the
number of thresholds strictly below `v`. -/
def searchsortedLeft (v : Nat) : Nat :=
  (([26, 77, 128, 179, 230] : List Nat).filter (fun t => t < v)).length

/-- The method `_map_pixels_to_palette_numpy(self, pixels, is_bgra)`:
returns `none`
("return None") when the buffer length is not a multiple of 4, otherwise
reshapes into rows of 4 bytes, extracts r,g,b per the channel-order flag and
maps each channel through `np.searchsorted` (left side), combining as
`r_lvl*36 + g_lvl*6 + b_lvl`. -/
def mapPixelsToPaletteNumpy (pixels : List Nat) (is_bgra : Bool) :
    Option (List Nat) :=
  if pixels.length % 4 ≠ 0 then none
  else some (go pixels)
where
  /-- Row-wise processing of the reshaped `(N, 4)` array. -/
  go : List Nat → List Nat
  | c0 :: c1 :: c2 :: _c3 :: rest =>
      let r := if is_bgra then c2 else c0
      let g := c1
      let b := if is_bgra then c0 else c2
      (searchsortedLeft r * 36 + searchsortedLeft g * 6 + searchsortedLeft b)
        :: go rest
  | _ => []

/-- The method `_generate_palette`: the 6×6×6 color cube, 216 RGB triples with channel
levels 0, 51, 102, 153, 204, 255, in r-major, then g, then b order. -/
def generate_palette : List (Nat × Nat × Nat) :=
  ([0, 51, 102, 153, 204, 255] : List Nat).flatMap fun r =>
    ([0, 51, 102, 153, 204, 255] : List Nat).flatMap fun g =>
      ([0, 51, 102, 153, 204, 255] : List Nat).map fun b => (r, g, b)

/-- The flat bytes of the 216-entry palette as written by `start()`
(`for r, g, b in self.palette: self.data.extend((r, g, b))`). -/
def paletteBytes : List Nat :=
  generate_palette.flatMap fun t => [t.1, t.2.1, t.2.2]

/-- The black padding written by `start()`: `for _ in range(256 -
len(self.palette)): self.data.extend((0, 0, 0))` — 40 iterations of three
zero bytes. -/
def blackPad : List Nat :=
  (List.replicate 40 ([0, 0, 0] : List Nat)).flatten

/-- The call `struct.pack` with format `<H` on `n`: two bytes, little
endian.  Faithful to the
Python call only for `n < 65536` (Python raises `struct.error` beyond);
theorems about packed fields carry that bound as a hypothesis. -/
def pack16 (n : Nat) : List Nat :=
  [n % 256, n / 256 % 256]

/-! ### LZW compressor (`_lzw_encode`) -/

/-- State of the loop in `_lzw_encode`.  The Python dict
`table`, built by a dict comprehension mapping `bytes([i])` to `i` for
`i in range(256)`, always contains the 256 single-byte keys, and every key ever inserted afterwards
(`table[new_pattern] = next_code`) has length ≥ 2, so the dict is represented
as the implicit singleton entries plus the association list `added` of
inserted entries.  `emitted` instruments each `emit(code)` call with the pair
(code, code_size at the call); `outBits` is the `out_bits` list of the source. -/
structure LZWState where
  codeSize : Nat
  nextCode : Nat
  added : List (List Nat × Nat)
  pattern : List Nat
  outBits : List Bool
  emitted : List (Nat × Nat)
  deriving Repr, DecidableEq

/-- Association-list lookup for the inserted dict entries. -/
def lookupAdded (added : List (List Nat × Nat)) (key : List Nat) :
    Option Nat :=
  match added with
  | [] => none
  | (k, c) :: rest => if k = key then some c else lookupAdded rest key

/-- Lookup in the LZW dict: the 256 initial singleton entries
`bytes([i]) ↦ i` plus the inserted entries (all of length ≥ 2). -/
def tableLookup (added : List (List Nat × Nat)) (key : List Nat) :
    Option Nat :=
  match key with
  | [i] => if i < 256 then some i else lookupAdded added key
  | _ => lookupAdded added key

/-- The bit expansion done by `emit`: `code_size` iterations of
`out_bits.append(curr & 1); curr >>= 1` — least significant bit first. -/
def codeBits : Nat → Nat → List Bool
  | 0, _ => []
  | w + 1, c => (c % 2 = 1) :: codeBits w (c / 2)

/-- The helper `emit(code)`: appends `code` to the bit stream at the current
`code_size`, and records the call in the instrumentation trace. -/
def emit (s : LZWState) (code : Nat) : LZWState :=
  { s with outBits := s.outBits ++ codeBits s.codeSize code,
           emitted := s.emitted ++ [(code, s.codeSize)] }

/-- The initial local state of `_lzw_encode` before `emit(clear_code)`:
`code_size = 8 + 1`, `next_code = 258`, fresh table, empty `pattern`. -/
def lzwInit : LZWState :=
  { codeSize := 9, nextCode := 258, added := [], pattern := [],
    outBits := [], emitted := [] }

/-- One iteration of `for idx in indices`.  `bytes([idx])` raises ValueError
for `idx ≥ 256`; `table[pattern]` raises KeyError when `pattern` is absent.
Otherwise: extend the pattern if the extension is a known key; else emit the
code of the current pattern, insert the extension at `next_code`, reset the
pattern to the single new index, grow `code_size` when `next_code` reaches
`1 << code_size`, and on `next_code == 4096` emit a Clear code and reset
table, `code_size` and `next_code`. -/
def lzwStep1 (s : LZWState) (idx : Nat) : Except String LZWState :=
  if 256 ≤ idx then .error "ValueError" else
  if (tableLookup s.added (s.pattern ++ [idx])).isSome then
    .ok { s with pattern := s.pattern ++ [idx] }
  else
    match tableLookup s.added s.pattern with
    | none => .error "KeyError"
    | some code =>
      -- `emit(table[pattern])`, the insertion at `next_code`, the increment
      -- of `next_code`, `pattern = c`, the `code_size` growth check, and the
      -- 4096 reset, written as one case split on the two conditions (both are
      -- determined by `next_code + 1` and `code_size` alone; the growth check
      -- runs first in the source, so a Clear triggered at 4096 is emitted at
      -- the just-grown code size)
      if s.nextCode + 1 = 4096 then
        if s.nextCode + 1 = 2 ^ s.codeSize then
          .ok { codeSize := 9, nextCode := 258, added := [],
                pattern := [idx],
                outBits := s.outBits ++ codeBits s.codeSize code ++
                  codeBits (s.codeSize + 1) 256,
                emitted := s.emitted ++ [(code, s.codeSize),
                  (256, s.codeSize + 1)] }
        else
          .ok { codeSize := 9, nextCode := 258, added := [],
                pattern := [idx],
                outBits := s.outBits ++ codeBits s.codeSize code ++
                  codeBits s.codeSize 256,
                emitted := s.emitted ++ [(code, s.codeSize),
                  (256, s.codeSize)] }
      else
        if s.nextCode + 1 = 2 ^ s.codeSize then
          .ok { codeSize := s.codeSize + 1, nextCode := s.nextCode + 1,
                added := s.added ++ [(s.pattern ++ [idx], s.nextCode)],
                pattern := [idx],
                outBits := s.outBits ++ codeBits s.codeSize code,
                emitted := s.emitted ++ [(code, s.codeSize)] }
        else
          .ok { codeSize := s.codeSize, nextCode := s.nextCode + 1,
                added := s.added ++ [(s.pattern ++ [idx], s.nextCode)],
                pattern := [idx],
                outBits := s.outBits ++ codeBits s.codeSize code,
                emitted := s.emitted ++ [(code, s.codeSize)] }

/-- The `for idx in indices` loop of `_lzw_encode`. -/
def lzwLoop (s : LZWState) : List Nat → Except String LZWState
  | [] => .ok s
  | idx :: rest =>
    match lzwStep1 s idx with
    | .error e => .error e
    | .ok s' => lzwLoop s' rest

/-- The method `_lzw_encode` up to (and including) the final
`emit(table[pattern])` and
`emit(end_code)`, returning the final state (bit stream plus emission
trace).  The final `table[pattern]` lookup raises KeyError when the pending
pattern is not a key — in particular when the input was empty. -/
def lzwEncodeState (indices : List Nat) : Except String LZWState :=
  match lzwLoop (emit lzwInit 256) indices with
  | .error e => .error e
  | .ok s =>
    match tableLookup s.added s.pattern with
    | none => .error "KeyError"
    | some c => .ok (emit (emit s c) 257)

/-- The bit-to-byte packing at the end of `_lzw_encode`: full bytes LSB
first, a final partial byte zero-padded. -/
def bitsToBytes : List Bool → List Nat
  | b0 :: b1 :: b2 :: b3 :: b4 :: b5 :: b6 :: b7 :: rest =>
      ((if b0 then 1 else 0) + (if b1 then 2 else 0) + (if b2 then 4 else 0) +
       (if b3 then 8 else 0) + (if b4 then 16 else 0) + (if b5 then 32 else 0) +
       (if b6 then 64 else 0) + (if b7 then 128 else 0)) :: bitsToBytes rest
  | [] => []
  | bs =>
      [bs.foldr (fun b acc => 2 * acc + (if b then 1 else 0)) 0]

/-- The method `_lzw_encode(indices)`: the packed byte string, or the uncaught
exception. -/
def lzwEncode (indices : List Nat) : Except String (List Nat) :=
  (lzwEncodeState indices).map (fun s => bitsToBytes s.outBits)

/-! ### Container writer (`GIFEncoder` object, `start`, `add_frame`,
`finish`) -/

/-- The `GIFEncoder` object: `__init__` fields plus the growing `self.data`
bytearray.  (`self.frames` is written nowhere after `__init__` and is
omitted.) -/
structure Encoder where
  width : Nat
  height : Nat
  loop : Int
  data : List Nat
  palette : List (Nat × Nat × Nat)
  deriving Repr, DecidableEq

/-- Constructing `GIFEncoder(width, height, loop)` — `__init__`. -/
def initEncoder (width height : Nat) (loop : Int) : Encoder :=
  { width := width, height := height, loop := loop, data := [],
    palette := [] }

/-- The bytes `start()` appends: signature, Logical Screen Descriptor,
Global Color Table (216-entry cube plus black padding to 256 entries), and
the NETSCAPE2.0 looping extension when `loop >= 0`. -/
def startBytes (width height : Nat) (loop : Int) : List Nat :=
  [71, 73, 70, 56, 57, 97] ++ pack16 width ++ pack16 height ++
  [0xF7, 0, 0] ++ paletteBytes ++ blackPad ++
  (if 0 ≤ loop then
    [0x21, 0xFF, 0x0B] ++
    [78, 69, 84, 83, 67, 65, 80, 69, 50, 46, 48] ++
    [0x03, 0x01] ++ pack16 loop.toNat ++ [0]
   else [])

/-- The method `start()`: sets `self.palette` and appends `startBytes`. -/
def start (e : Encoder) : Encoder :=
  { e with palette := generate_palette,
           data := e.data ++ startBytes e.width e.height e.loop }

/-- The Graphics Control Extension bytes appended by `add_frame`:
`0x21, 0xF9, 4, 0x08 | 0x00, <H delay, 0, 0`. -/
def gceBytes (delay : Nat) : List Nat :=
  [0x21, 0xF9, 4, 0x08] ++ pack16 delay ++ [0, 0]

/-- The Image Descriptor bytes appended by `add_frame`:
`0x2C, <HH 0 0, <HH width height, 0x00`. -/
def imageDescriptorBytes (width height : Nat) : List Nat :=
  [0x2C] ++ pack16 0 ++ pack16 0 ++ pack16 width ++ pack16 height ++ [0x00]

/-- The sub-block chunking loop of `add_frame`,
`for i in range(0, len(lzw_data), 255): append(len(chunk)); extend(chunk)`,
written with structural recursion on a fuel argument so that it reduces in
the kernel; every step consumes at least one byte of a nonempty list, so any
fuel of at least `d.length` gives the behavior of the loop. -/
def chunkBlocksF : Nat → List Nat → List Nat
  | _, [] => []
  | 0, _ => []
  | fuel + 1, d => ((d.take 255).length :: d.take 255) ++
      chunkBlocksF fuel (d.drop 255)

/-- The sub-block chunking loop of `add_frame` (see `chunkBlocksF`). -/
def chunkBlocks (d : List Nat) : List Nat :=
  chunkBlocksF d.length d

/-- The image data section appended by `add_frame`: length-prefixed chunks
of at most 255 bytes followed by the `self.data.append(0)` terminator. -/
def subBlocks (d : List Nat) : List Nat :=
  chunkBlocks d ++ [0]

/-- The method `add_frame(pixels, width, height, delay, is_bgra)`.
Returns the mutated
encoder together with the uncaught exception, if any.  `numpyAvailable`
models whether `import numpy` succeeds inside
`_map_pixels_to_palette_numpy`; when it fails (or the buffer length is not a
multiple of 4) that method returns `None` and `add_frame` falls back to
`self._map_pixels_to_palette(pixels, is_bgra)` — which raises `TypeError`,
because the effective (second) definition of `_map_pixels_to_palette` takes
only `(self, pixels)` and the call passes two positional arguments.  In
every branch the GCE, Image Descriptor and minimum-code-size bytes have
already been appended before the pixel mapping runs. -/
def addFrame (e : Encoder) (pixels : List Nat) (width height delay : Nat)
    (is_bgra : Bool) (numpyAvailable : Bool) :
    Encoder × Option String :=
  let d1 := e.data ++ gceBytes delay ++ imageDescriptorBytes width height ++
    [8]
  let indicesOpt := if numpyAvailable then
    mapPixelsToPaletteNumpy pixels is_bgra else none
  match indicesOpt with
  | none => ({ e with data := d1 }, some "TypeError")
  | some indices =>
    match lzwEncode indices with
    | .error err => ({ e with data := d1 }, some err)
    | .ok lzwData => ({ e with data := d1 ++ subBlocks lzwData }, none)

/-- The method `finish(filepath)`: appends the trailer byte (the file write itself is
out of scope). -/
def finish (e : Encoder) : Encoder :=
  { e with data := e.data ++ [0x3B] }

/-- The arguments of one `add_frame` call, for folding a whole session. -/
structure FrameCall where
  pixels : List Nat
  width : Nat
  height : Nat
  delay : Nat
  is_bgra : Bool
  numpyAvailable : Bool

/-- Run a list of `add_frame` calls in order, keeping the states
(exceptions, if raised, are discarded by the caller as Python callers may). -/
def runFrames (e : Encoder) (calls : List FrameCall) : Encoder :=
  calls.foldl
    (fun acc c =>
      (addFrame acc c.pixels c.width c.height c.delay c.is_bgra
        c.numpyAvailable).1)
    e

/-! ### Predicates for the LZW and sub-block claims -/

/-- Relation between two consecutive emissions of the LZW encoder: the code
width never shrinks, except immediately after a Clear code (which resets it
to 9). -/
def WidthStep (p q : Nat × Nat) : Prop :=
  p.2 ≤ q.2 ∨ (p.1 = 256 ∧ q.2 = 9)

/-- The code-size/next-code invariant of `_lzw_encode`: `code_size` is
incremented exactly when `next_code` reaches `1 << code_size`, so at every
loop boundary `next_code < 2 ^ code_size` and, unless `code_size` is still
at its initial 9, `2 ^ (code_size - 1) ≤ next_code`. -/
def SizeInv (s : LZWState) : Prop :=
  9 ≤ s.codeSize ∧ s.codeSize ≤ 12 ∧ 258 ≤ s.nextCode ∧
  s.nextCode < 2 ^ s.codeSize ∧
  (s.codeSize = 9 ∨ 2 ^ (s.codeSize - 1) ≤ s.nextCode)

/-- The most recent emission is compatible with any future emission at the
current code size. -/
def lastOK (s : LZWState) : Prop :=
  ∀ p, s.emitted.getLast? = some p →
    (p.2 ≤ s.codeSize ∨ (p.1 = 256 ∧ s.codeSize = 9))

/-- Combined induction invariant for the `_lzw_encode` loop. -/
def LoopInv (s : LZWState) : Prop :=
  SizeInv s ∧
  (s.pattern = [] ∨ (tableLookup s.added s.pattern).isSome) ∧
  List.Chain' WidthStep s.emitted ∧
  lastOK s ∧
  s.emitted.head? = some (256, 9)

/-- A byte string is a well-formed GIF sub-block sequence: length-prefixed
blocks whose length byte is nonzero, at most 255 and equal to the number of
data bytes that follow, closed by exactly one zero-length terminator block
at the very end. -/
def validSubBlocks : List Nat → Bool
  | [] => false
  | 0 :: rest => rest.isEmpty
  | n :: rest =>
      decide (n ≤ 255) && decide (n ≤ rest.length) &&
      validSubBlocks (rest.drop n)
termination_by l => l.length
decreasing_by
  simp [List.length_drop]
  omega

/-! ### A standards-compliant GIF decoder, for the round-trip claim.

Modelled from the spec: no GIF decoder exists in the repository (§1 declares
decoding a non-goal), so the round-trip property of §8 is settled against a
decoder written from the container layout of §4.3 and the LZW coding rules
of §4.2 (dictionary codes 0–255 literal, 256 Clear, 257 End-of-Information,
code widths from 9 to 12 bits growing with the dictionary, LSB-first bit
packing, length-prefixed sub-blocks). -/

/-- Modelled from the spec: LSB-first unpacking of a byte string into a bit
stream (inverse of the §4.2 bit packer). -/
def bytesToBits (bytes : List Nat) : List Bool :=
  bytes.flatMap fun b =>
    [b % 2 = 1, b / 2 % 2 = 1, b / 4 % 2 = 1, b / 8 % 2 = 1,
     b / 16 % 2 = 1, b / 32 % 2 = 1, b / 64 % 2 = 1, b / 128 % 2 = 1]

/-- Modelled from the spec: read an LSB-first code from a bit list. -/
def bitsToNatLSB (bits : List Bool) : Nat :=
  bits.foldr (fun b acc => 2 * acc + (if b then 1 else 0)) 0

/-- Modelled from the spec: the dictionary entry of the decoder for a code,
for
an 8-bit minimum code size — codes 0–255 are literals, 256/257 are
reserved, codes from 258 index the strings grown since the last Clear. -/
def lzwDecodeEntry (added : List (List Nat)) (code : Nat) :
    Option (List Nat) :=
  if code < 256 then some [code]
  else if code = 256 ∨ code = 257 then none
  else added.get? (code - 258)

/-- Binary length of a natural number (`bitLenF n n` for `n ≥ 1` is
`⌊log₂ n⌋ + 1`), with structural fuel recursion so it reduces in the
kernel. -/
def bitLenF : Nat → Nat → Nat
  | 0, _ => 0
  | fuel + 1, n => if n = 0 then 0 else bitLenF fuel (n / 2) + 1

/-- Binary length of a natural number. -/
def bitLen (n : Nat) : Nat :=
  bitLenF n n

/-- Modelled from the spec: the width at which a compliant decoder reads the
next code, mirroring an encoder whose `next_code` is one ahead of the
next free decoder slot `258 + added.length`, capped at 12 bits. -/
def decodeWidth (added : List (List Nat)) : Nat :=
  min 12 (max 9 (bitLen (259 + added.length)))

/-- Modelled from the spec: the LZW decoding loop.  `prev = []` marks the
state right after a Clear code (real dictionary strings are never empty).
Handles the literal, known-code, and just-assigned-code (KwKwK) cases,
stops at End-of-Information, and fails (`none`) on malformed input or fuel
exhaustion. -/
def lzwDecodeLoop :
    Nat → List Bool → List (List Nat) → List Nat → List Nat →
    Option (List Nat)
  | 0, _, _, _, _ => none
  | fuel + 1, bits, added, prev, acc =>
    let w := decodeWidth added
    if bits.length < w then none else
    let code := bitsToNatLSB (bits.take w)
    let rest := bits.drop w
    if code = 257 then some acc
    else if code = 256 then lzwDecodeLoop fuel rest [] [] acc
    else if prev.isEmpty then
      if code < 256 then lzwDecodeLoop fuel rest [] [code] (acc ++ [code])
      else none
    else
      match lzwDecodeEntry added code with
      | some entry =>
          lzwDecodeLoop fuel rest (added ++ [prev ++ entry.take 1]) entry
            (acc ++ entry)
      | none =>
          if code = 258 + added.length then
            lzwDecodeLoop fuel rest (added ++ [prev ++ prev.take 1])
              (prev ++ prev.take 1) (acc ++ prev ++ prev.take 1)
          else none

/-- Modelled from the spec: decode the LZW data of one frame (for the fixed
8-bit minimum code size this encoder always writes). -/
def lzwDecode (bytes : List Nat) : Option (List Nat) :=
  lzwDecodeLoop (bytes.length + 2) (bytesToBits bytes) [] [] []

/-- Modelled from the spec: collect the data bytes of a length-prefixed
sub-block sequence up to and including its zero terminator, returning the
data and the remaining stream. -/
def parseSubBlocks : Nat → List Nat → Option (List Nat × List Nat)
  | 0, _ => none
  | _ + 1, [] => none
  | fuel + 1, n :: rest =>
    if n = 0 then some ([], rest)
    else if rest.length < n then none
    else
      (parseSubBlocks fuel (rest.drop n)).map fun dr =>
        (rest.take n ++ dr.1, dr.2)

/-- Modelled from the spec: the block-level loop of a compliant reader after
the global color table — Graphic Control Extensions (capturing the
little-endian centisecond delay), other extensions (skipped), image
descriptors (whose sub-blocked data is LZW-decoded into the frame palette
indices, paired with the pending delay), and the 0x3B trailer. -/
def parseBlocks :
    Nat → List Nat → Nat → List (Nat × List Nat) →
    Option (List (Nat × List Nat))
  | 0, _, _, _ => none
  | _ + 1, [], _, _ => none
  | fuel + 1, b :: rest, delay, acc =>
    if b = 0x3B then some acc
    else if b = 0x21 then
      match rest with
      | lbl :: r2 =>
        if lbl = 0xF9 then
          match r2 with
          | n :: _packed :: dlo :: dhi :: _tidx :: z :: r3 =>
            if n = 4 ∧ z = 0 then
              parseBlocks fuel r3 (dlo + 256 * dhi) acc
            else none
          | _ => none
        else
          match parseSubBlocks (r2.length + 1) r2 with
          | some dr => parseBlocks fuel dr.2 delay acc
          | none => none
      | [] => none
    else if b = 0x2C then
      match rest with
      | _l1 :: _l2 :: _t1 :: _t2 :: _w1 :: _w2 :: _h1 :: _h2 :: _pk :: mcs
          :: r2 =>
        if mcs = 8 then
          match parseSubBlocks (r2.length + 1) r2 with
          | some dr =>
            match lzwDecode dr.1 with
            | some idxs => parseBlocks fuel dr.2 delay (acc ++ [(delay, idxs)])
            | none => none
          | none => none
        else none
      | _ => none
    else none

/-- Modelled from the spec: a compliant reader for the whole byte stream:
checks the `GIF89a` signature, reads the logical screen size, skips the
global color table whose size the packed byte declares, and parses the
block sequence.  Returns (width, height, frames as (delay, indices)). -/
def parseGif (bytes : List Nat) :
    Option (Nat × Nat × List (Nat × List Nat)) :=
  match bytes with
  | s1 :: s2 :: s3 :: s4 :: s5 :: s6 :: w1 :: w2 :: h1 :: h2 :: pk :: _bg ::
      _ar :: rest =>
    if [s1, s2, s3, s4, s5, s6] = [71, 73, 70, 56, 57, 97] ∧ 128 ≤ pk then
      let gctLen := 3 * 2 ^ (pk % 8 + 1)
      if gctLen ≤ rest.length then
        (parseBlocks (rest.length + 1) (rest.drop gctLen) 0 []).map
          fun frames => (w1 + 256 * w2, h1 + 256 * h2, frames)
      else none
    else none
  | _ => none

/-- Modelled from the spec: the §4.1 quantizer applied to every 4-byte RGBA
pixel of a buffer — the reference indices the round-trip property compares
against. -/
def quantizeBuffer : List Nat → List Nat
  | r :: g :: b :: _ :: rest => quantize r g b :: quantizeBuffer rest
  | _ => []

/-! ### Concrete round-trip scenarios -/

/-- A 4×4 solid red RGBA frame. -/
def solidRedPixels : List Nat :=
  (List.replicate 16 ([255, 0, 0, 255] : List Nat)).flatten

/-- An 8×8 two-color (white/black) checkerboard RGBA frame, row major. -/
def checkerPixels : List Nat :=
  (List.range 8).flatMap fun y =>
    (List.range 8).flatMap fun x =>
      if (x + y) % 2 = 0 then [255, 255, 255, 255] else [0, 0, 0, 255]

/-- A 2×2 solid RGBA frame of gray level `c`. -/
def solidGrayPixels (c : Nat) : List Nat :=
  (List.replicate 4 ([c, c, c, 255] : List Nat)).flatten

/-- Session (a): one 4×4 solid red frame, delay 10. -/
def sessionA : Encoder :=
  finish (addFrame (start (initEncoder 4 4 0)) solidRedPixels 4 4 10
    false true).1

/-- Session (b): one 8×8 checkerboard frame, delay 7. -/
def sessionB : Encoder :=
  finish (addFrame (start (initEncoder 8 8 0)) checkerPixels 8 8 7
    false true).1

/-- Session (c): three 2×2 solid frames of incrementing gray levels with
distinct delays 10, 20, 30. -/
def sessionC : Encoder :=
  finish (runFrames (start (initEncoder 2 2 0))
    [⟨solidGrayPixels 100, 2, 2, 10, false, true⟩,
     ⟨solidGrayPixels 110, 2, 2, 20, false, true⟩,
     ⟨solidGrayPixels 120, 2, 2, 30, false, true⟩])

/-! ## Theorems -/

theorem get_level_le_five (v : Nat) : get_level v ≤ 5 := by
  unfold get_level
  split_ifs <;> omega

/-- Claim C9: the quantizer is a pure total function over the full byte
domain, always returns an index in [0, 215] computed as
`r_level*36 + g_level*6 + b_level` with alpha ignored, and in particular
maps (0,0,0) to 0 and (255,255,255) to 215. -/
theorem c9_quantizer_total :
    quantize 0 0 0 = 0 ∧ quantize 255 255 255 = 215 ∧
    (∀ r g b, quantize r g b ≤ 215) ∧
    (∀ r g b, quantize r g b =
      get_level r * 36 + get_level g * 6 + get_level b) ∧
    (∀ r g b a, mapPixelsToPalette [r, g, b, a] = some [quantize r g b]) := by
  refine ⟨by decide, by decide, ?_, fun r g b => rfl, fun r g b a => rfl⟩
  intro r g b
  have hr := get_level_le_five r
  have hg := get_level_le_five g
  have hb := get_level_le_five b
  unfold quantize
  omega

theorem validSubBlocks_cons_succ (m : Nat) (rest : List Nat) :
    validSubBlocks ((m + 1) :: rest) =
      (decide (m + 1 ≤ 255) && decide (m + 1 ≤ rest.length) &&
        validSubBlocks (rest.drop (m + 1))) := by
  rw [validSubBlocks]
  omega

theorem chunkBlocksF_valid :
    ∀ (fuel : Nat) (d : List Nat), d.length ≤ fuel →
      validSubBlocks (chunkBlocksF fuel d ++ [0]) = true := by
  intro fuel
  induction fuel with
  | zero =>
    intro d hd
    have : d = [] := List.eq_nil_of_length_eq_zero (Nat.le_zero.mp hd)
    subst this
    simp [chunkBlocksF, validSubBlocks]
  | succ fuel ih =>
    intro d hd
    match d with
    | [] => simp [chunkBlocksF, validSubBlocks]
    | x :: xs =>
      rw [show chunkBlocksF (fuel + 1) (x :: xs) =
        (((x :: xs).take 255).length :: (x :: xs).take 255) ++
          chunkBlocksF fuel ((x :: xs).drop 255) from rfl]
      obtain ⟨m, hm⟩ : ∃ m, ((x :: xs).take 255).length = m + 1 := by
        simp [List.length_take]
      rw [hm]
      simp only [List.cons_append, List.append_assoc]
      rw [validSubBlocks_cons_succ]
      have hrec := ih ((x :: xs).drop 255)
        (by simp only [List.length_drop, List.length_cons] at hd ⊢; omega)
      have hdrop :
          (((x :: xs).take 255 ++
            (chunkBlocksF fuel ((x :: xs).drop 255) ++ [0])).drop (m + 1)) =
          chunkBlocksF fuel ((x :: xs).drop 255) ++ [0] := by
        rw [← hm, List.drop_left]
      have h255 : m + 1 ≤ 255 := by
        rw [← hm]; simp [List.length_take]
      have hlen : m + 1 ≤ ((x :: xs).take 255 ++
          (chunkBlocksF fuel ((x :: xs).drop 255) ++ [0])).length := by
        rw [List.length_append, ← hm]; omega
      rw [hdrop]
      simp only [Bool.and_eq_true, decide_eq_true_eq]
      exact ⟨⟨h255, hlen⟩, hrec⟩

/-- Claim C8: the compressed image data appended by `add_frame` is split
into sub-blocks whose length bytes are at most 255 and equal the number of
data bytes following them, terminated by exactly one zero-length block. -/
theorem c8_subblocks_valid (d : List Nat) :
    validSubBlocks (subBlocks d) = true := by
  unfold subBlocks chunkBlocks
  exact chunkBlocksF_valid d.length d (Nat.le_refl _)

/-- Claim C1 (refuted — code bug): the two quantization paths do NOT agree:
on the buffer [26, 0, 0, 255] the vectorized path (`np.searchsorted`, left
side) yields index 0 while the per-pixel rule ("value strictly below a
threshold selects the lower level", so 26 ↦ level 1) yields 36; moreover
the effective per-pixel method accepts no channel-order flag, so the
fallback call made by `add_frame` raises TypeError even for RGBA input. -/
theorem c1_quantization_paths_diverge :
    mapPixelsToPaletteNumpy [26, 0, 0, 255] false = some [0] ∧
    mapPixelsToPalette [26, 0, 0, 255] = some [36] ∧
    get_level 26 = 1 ∧ searchsortedLeft 26 = 0 ∧
    (addFrame (start (initEncoder 1 1 0)) [26, 0, 0, 255] 1 1 10 false
      false).2 = some "TypeError" := by
  exact ⟨rfl, rfl, rfl, rfl, rfl⟩

/-- Claim C2 (refuted — code bug): `add_frame` performs no size validation:
with a buffer of length `width*height*4 - 1` on a started 1×1 session the
call appends the Graphics Control Extension, Image Descriptor and
minimum-code-size bytes to the session buffer and then raises TypeError
(there is no InvalidFrameSize and the buffer is mutated). -/
theorem c2_no_invalid_frame_size_check :
    (addFrame (start (initEncoder 1 1 0)) [0, 0, 0] 1 1 10 false true).2 =
      some "TypeError" ∧
    (addFrame (start (initEncoder 1 1 0)) [0, 0, 0] 1 1 10 false
      true).1.data =
      (start (initEncoder 1 1 0)).data ++ gceBytes 10 ++
        imageDescriptorBytes 1 1 ++ [8] ∧
    (addFrame (start (initEncoder 1 1 0)) [0, 0, 0] 1 1 10 false
      true).1.data ≠ (start (initEncoder 1 1 0)).data := by
  refine ⟨rfl, rfl, fun h => ?_⟩
  have h' := congrArg List.length h
  rw [show (addFrame (start (initEncoder 1 1 0)) [0, 0, 0] 1 1 10 false
      true).1.data.length = 819 from rfl,
    show (start (initEncoder 1 1 0)).data.length = 800 from rfl] at h'
  exact absurd h' (by decide)

/-- Claim C3 (refuted — code bug): there is no SequenceError: `add_frame`
on a fresh encoder before `start()` succeeds and appends a full frame to
the empty buffer, and a second `finish()` is not rejected — it appends a
second trailer byte. -/
theorem c3_no_sequence_error :
    (addFrame (initEncoder 1 1 0) [255, 0, 0, 255] 1 1 10 false true).2 =
      none ∧
    (addFrame (initEncoder 1 1 0) [255, 0, 0, 255] 1 1 10 false
      true).1.data ≠ [] ∧
    (∀ e : Encoder, (finish (finish e)).data = e.data ++ [0x3B, 0x3B]) := by
  refine ⟨rfl, by decide, fun e => ?_⟩
  simp [finish]

/-- Claim C4 (refuted — code bug): the vectorized path honors the
channel-order flag, but the fallback path reachable from `add_frame` does
not: the effective `_map_pixels_to_palette` takes no flag (the later
definition overrides the flag-aware one), so the fallback call raises
TypeError, and the effective method itself always assumes RGBA — on the
BGRA bytes of pure red it yields index 5 (blue) instead of 180 (red). -/
theorem c4_fallback_ignores_channel_order :
    (∀ r g b a, mapPixelsToPaletteNumpy [b, g, r, a] true =
      mapPixelsToPaletteNumpy [r, g, b, a] false) ∧
    (addFrame (start (initEncoder 1 1 0)) [0, 0, 255, 255] 1 1 10 true
      false).2 = some "TypeError" ∧
    mapPixelsToPaletteNumpy [0, 0, 255, 255] true = some [180] ∧
    mapPixelsToPalette [0, 0, 255, 255] = some [5] ∧
    quantize 255 0 0 = 180 := by
  exact ⟨fun r g b a => rfl, rfl, rfl, rfl, rfl⟩

theorem tableLookup_single (added : List (List Nat × Nat)) (i : Nat)
    (h : i < 256) : tableLookup added [i] = some i := by
  simp [tableLookup, h]

theorem emitted_ne_nil_of_head {s : LZWState}
    (h : s.emitted.head? = some (256, 9)) : s.emitted ≠ [] := by
  intro hnil
  rw [hnil] at h
  simp at h

/-- Introduction rule for `LoopInv` on an explicitly given state, so the
record projections are already reduced. -/
theorem loopInv_intro (cs n : Nat) (added : List (List Nat × Nat))
    (pat : List Nat) (ob : List Bool) (em : List (Nat × Nat))
    (h1 : 9 ≤ cs) (h2 : cs ≤ 12) (h3 : 258 ≤ n) (h4 : n < 2 ^ cs)
    (h5 : cs = 9 ∨ 2 ^ (cs - 1) ≤ n)
    (h6 : pat = [] ∨ (tableLookup added pat).isSome)
    (h7 : List.Chain' WidthStep em)
    (h8 : ∀ p : Nat × Nat, em.getLast? = some p →
      (p.2 ≤ cs ∨ (p.1 = 256 ∧ cs = 9)))
    (h9 : em.head? = some (256, 9)) :
    LoopInv ⟨cs, n, added, pat, ob, em⟩ :=
  ⟨⟨h1, h2, h3, h4, h5⟩, h6, h7, h8, h9⟩

/-- One successful `_lzw_encode` loop iteration preserves the invariant,
leaves a nonempty pending pattern, and only appends to the emission
trace. -/
theorem lzwStep1_ok (s : LZWState) (idx : Nat) (hidx : idx < 256)
    (hInv : LoopInv s) :
    ∃ s', lzwStep1 s idx = .ok s' ∧ LoopInv s' ∧ s'.pattern ≠ [] ∧
      ∃ t, s'.emitted = s.emitted ++ t := by
  obtain ⟨⟨h9, h12, h258, hlt, hdisj⟩, hPat, hChain, hLast, hHead⟩ := hInv
  have hemne : s.emitted ≠ [] := emitted_ne_nil_of_head hHead
  unfold lzwStep1
  rw [if_neg (by omega : ¬ 256 ≤ idx)]
  by_cases hext : (tableLookup s.added (s.pattern ++ [idx])).isSome
  · rw [if_pos hext]
    exact ⟨_, rfl,
      loopInv_intro _ _ _ _ _ _ h9 h12 h258 hlt hdisj (Or.inr hext)
        hChain hLast hHead,
      by simp, [], by simp⟩
  · rw [if_neg hext]
    rcases hPat with hnil | hsome
    · exact absurd (by rw [hnil]; simp [tableLookup, hidx]) hext
    · obtain ⟨code0, hcode0⟩ := Option.isSome_iff_exists.mp hsome
      split
      · rename_i hnone
        rw [hcode0] at hnone
        exact Option.noConfusion hnone
      rename_i code hcode
      have hWlast : ∀ p, s.emitted.getLast? = some p →
          WidthStep p (code, s.codeSize) := by
        intro p hp
        rcases hLast p hp with h | ⟨h1, h2⟩
        · exact Or.inl h
        · exact Or.inr ⟨h1, h2⟩
      have hchain1 : List.Chain' WidthStep
          (s.emitted ++ [(code, s.codeSize)]) := by
        rw [List.chain'_append]
        refine ⟨hChain, List.chain'_singleton _, ?_⟩
        intro p hp q hq
        simp only [List.head?_cons, Option.mem_def, Option.some.injEq] at hq
        subst hq
        exact hWlast p hp
      have hhead1 : ∀ u : List (Nat × Nat),
          (s.emitted ++ u).head? = some (256, 9) := by
        intro u
        rw [List.head?_append_of_ne_nil _ hemne]
        exact hHead
      have hlast1 : ∀ p : Nat × Nat,
          (s.emitted ++ [(code, s.codeSize)]).getLast? = some p →
          p = (code, s.codeSize) := by
        intro p hp
        rw [List.getLast?_concat] at hp
        exact (Option.some.injEq _ _ ▸ hp).symm
      by_cases h4096 : s.nextCode + 1 = 4096
      · rw [if_pos h4096]
        have hcs12 : s.codeSize = 12 := by
          have hp11 : (2 : Nat) ^ 11 = 2048 := by norm_num
          by_contra hne
          have hle : s.codeSize ≤ 11 := by omega
          have : (2 : Nat) ^ s.codeSize ≤ 2 ^ 11 :=
            Nat.pow_le_pow_right (by omega) hle
          omega
        have hinc : s.nextCode + 1 = 2 ^ s.codeSize := by
          rw [hcs12]; norm_num; omega
        rw [if_pos hinc]
        refine ⟨_, rfl,
          loopInv_intro _ _ _ _ _ _ (by omega) (by omega) (by omega)
            (by norm_num) (Or.inl rfl)
            (Or.inr (by simp [tableLookup, hidx])) ?_ ?_ (hhead1 _),
          by simp, [(code, s.codeSize), (256, s.codeSize + 1)], rfl⟩
        · rw [show s.emitted ++ [(code, s.codeSize), (256, s.codeSize + 1)] =
            (s.emitted ++ [(code, s.codeSize)]) ++ [(256, s.codeSize + 1)] by
              simp]
          rw [List.chain'_append]
          refine ⟨hchain1, List.chain'_singleton _, ?_⟩
          intro p hp q hq
          simp only [List.head?_cons, Option.mem_def, Option.some.injEq] at hq
          subst hq
          have := hlast1 p hp
          subst this
          exact Or.inl (by omega)
        · intro p hp
          rw [show s.emitted ++ [(code, s.codeSize), (256, s.codeSize + 1)] =
            (s.emitted ++ [(code, s.codeSize)]) ++ [(256, s.codeSize + 1)] by
              simp, List.getLast?_concat] at hp
          simp only [Option.some.injEq] at hp
          subst hp
          exact Or.inr ⟨rfl, rfl⟩
      · rw [if_neg h4096]
        by_cases hinc : s.nextCode + 1 = 2 ^ s.codeSize
        · rw [if_pos hinc]
          have hcsle : s.codeSize ≤ 11 := by
            by_contra hne
            have h12' : s.codeSize = 12 := by omega
            rw [h12'] at hinc
            norm_num at hinc
            omega
          have hpow : (2 : Nat) ^ s.codeSize < 2 ^ (s.codeSize + 1) := by
            rw [Nat.pow_succ]; omega
          refine ⟨_, rfl,
            loopInv_intro _ _ _ _ _ _ (by omega) (by omega) (by omega)
              (by omega)
              (Or.inr (by simp only [Nat.add_sub_cancel]; omega))
              (Or.inr (by simp [tableLookup, hidx])) hchain1 ?_ (hhead1 _),
            by simp, [(code, s.codeSize)], rfl⟩
          intro p hp
          have := hlast1 p hp
          subst this
          exact Or.inl (by omega)
        · rw [if_neg hinc]
          refine ⟨_, rfl,
            loopInv_intro _ _ _ _ _ _ h9 h12 (by omega) (by omega) ?_
              (Or.inr (by simp [tableLookup, hidx])) hchain1 ?_ (hhead1 _),
            by simp, [(code, s.codeSize)], rfl⟩
          · rcases hdisj with h | h
            · exact Or.inl h
            · exact Or.inr (by omega)
          · intro p hp
            have := hlast1 p hp
            subst this
            exact Or.inl (by omega)

/-- Claim C10: on an empty pixel buffer (a 0×0 frame satisfies the length
precondition) `add_frame` is not total: after the GCE, Image Descriptor and
minimum-code-size bytes are already in the session buffer, `_lzw_encode`
looks up the empty pattern in the code table and raises an uncaught
KeyError, leaving the partially written frame behind. -/
theorem c10_empty_frame_keyerror :
    lzwEncode [] = .error "KeyError" ∧
    ∀ (e : Encoder) (delay : Nat) (flag : Bool),
      addFrame e [] 0 0 delay flag true =
        ({ e with data := e.data ++ gceBytes delay ++
            imageDescriptorBytes 0 0 ++ [8] }, some "KeyError") := by
  exact ⟨rfl, fun e delay flag => rfl⟩

theorem loopInv_startState : LoopInv (emit lzwInit 256) := by
  show LoopInv ⟨9, 258, [], [], codeBits 9 256, [(256, 9)]⟩
  refine loopInv_intro _ _ _ _ _ _ (by norm_num) (by norm_num) (by norm_num)
    (by norm_num) (Or.inl rfl) (Or.inl rfl) (List.chain'_singleton _) ?_ rfl
  intro p hp
  simp only [List.getLast?_singleton, Option.some.injEq] at hp
  subst hp
  exact Or.inl (le_refl _)

/-- The `_lzw_encode` loop runs to completion on in-range indices,
preserving the invariant; the pending pattern is nonempty as soon as one
index has been consumed, and the emission trace only grows. -/
theorem lzwLoop_ok :
    ∀ (l : List Nat) (s : LZWState), (∀ i ∈ l, i < 256) → LoopInv s →
      ∃ s', lzwLoop s l = .ok s' ∧ LoopInv s' ∧
        ((s.pattern ≠ [] ∨ l ≠ []) → s'.pattern ≠ []) ∧
        ∃ t, s'.emitted = s.emitted ++ t := by
  intro l
  induction l with
  | nil =>
    intro s _ hInv
    refine ⟨s, rfl, hInv, ?_, [], by simp⟩
    rintro (h | h)
    · exact h
    · exact absurd rfl h
  | cons i rest ih =>
    intro s hb hInv
    obtain ⟨s1, hstep, hInv1, hp1, t1, ht1⟩ :=
      lzwStep1_ok s i (hb i (by simp)) hInv
    obtain ⟨s2, hloop, hInv2, hp2, t2, ht2⟩ :=
      ih s1 (fun j hj => hb j (by simp [hj])) hInv1
    refine ⟨s2, ?_, hInv2, fun _ => hp2 (Or.inl hp1), t1 ++ t2, ?_⟩
    · rw [show lzwLoop s (i :: rest) =
        (match lzwStep1 s i with
         | .error e => .error e
         | .ok s' => lzwLoop s' rest) from rfl, hstep]
      exact hloop
    · rw [ht2, ht1, List.append_assoc]

/-- Claim C5: for every non-empty byte-valued palette-index sequence the
LZW compressor emits the Clear code (256) first at the initial 9-bit width
with `next_code` starting at 258; it ends with the code of the pending
pattern followed by End-of-Information (257); emission widths never shrink
except immediately after a Clear; the code size is always exactly the one
obtained by incrementing at `next_code = 2 ^ code_size` (so `next_code <
2 ^ code_size` and, above 9 bits, `2 ^ (code_size - 1) ≤ next_code` at
every loop boundary); when `next_code` reaches 4096 a Clear code is
emitted and the dictionary is reset to its initial 258-entry state with
the code size back to 9; and a single-pixel frame still yields the full
Clear → code → End sequence. -/
theorem c5_lzw_stream_structure (indices : List Nat)
    (hne : indices ≠ []) (hbytes : ∀ i ∈ indices, i < 256) :
    (∃ s, lzwEncodeState indices = .ok s ∧
      s.emitted.head? = some (256, 9) ∧
      (∃ c pre, tableLookup s.added s.pattern = some c ∧
        s.emitted = pre ++ [(c, s.codeSize), (257, s.codeSize)]) ∧
      List.Chain' WidthStep s.emitted) ∧
    (emit lzwInit 256).nextCode = 258 ∧ (emit lzwInit 256).codeSize = 9 ∧
    (∀ pre suf, indices = pre ++ suf →
      ∃ sp, lzwLoop (emit lzwInit 256) pre = .ok sp ∧ SizeInv sp) ∧
    (∀ (s : LZWState) (idx c : Nat), SizeInv s → s.nextCode = 4095 →
      idx < 256 → tableLookup s.added (s.pattern ++ [idx]) = none →
      tableLookup s.added s.pattern = some c →
      ∃ s', lzwStep1 s idx = .ok s' ∧ s'.codeSize = 9 ∧ s'.nextCode = 258 ∧
        s'.added = [] ∧ s'.emitted = s.emitted ++ [(c, 12), (256, 13)]) ∧
    (∀ i, i < 256 → ∃ s, lzwEncodeState [i] = .ok s ∧
      s.emitted = [(256, 9), (i, 9), (257, 9)]) := by
  refine ⟨?_, rfl, rfl, ?_, ?_, ?_⟩
  · obtain ⟨sl, hloop, ⟨hSize, lPat, lChain, lLast, lHead⟩, hpat, t, ht⟩ :=
      lzwLoop_ok indices (emit lzwInit 256) hbytes loopInv_startState
    have hpne : sl.pattern ≠ [] := hpat (Or.inr hne)
    have hsome : (tableLookup sl.added sl.pattern).isSome := by
      rcases lPat with h | h
      · exact absurd h hpne
      · exact h
    obtain ⟨c, hc⟩ := Option.isSome_iff_exists.mp hsome
    have hemne : sl.emitted ≠ [] := emitted_ne_nil_of_head lHead
    have happne : sl.emitted ++ [(c, sl.codeSize)] ≠ [] := by simp
    have hchain1 : List.Chain' WidthStep
        (sl.emitted ++ [(c, sl.codeSize)]) := by
      rw [List.chain'_append]
      refine ⟨lChain, List.chain'_singleton _, ?_⟩
      intro p hp q hq
      simp only [List.head?_cons, Option.mem_def, Option.some.injEq] at hq
      subst hq
      rcases lLast p hp with h | ⟨h1, h2⟩
      · exact Or.inl h
      · exact Or.inr ⟨h1, h2⟩
    refine ⟨emit (emit sl c) 257, ?_, ?_, ⟨c, sl.emitted, hc, ?_⟩, ?_⟩
    · simp only [lzwEncodeState, hloop, hc]
    · show ((sl.emitted ++ [(c, sl.codeSize)]) ++
        [(257, sl.codeSize)]).head? = some (256, 9)
      rw [List.head?_append_of_ne_nil _ happne,
        List.head?_append_of_ne_nil _ hemne]
      exact lHead
    · show (sl.emitted ++ [(c, sl.codeSize)]) ++ [(257, sl.codeSize)] =
        sl.emitted ++ [(c, sl.codeSize), (257, sl.codeSize)]
      simp
    · show List.Chain' WidthStep
        ((sl.emitted ++ [(c, sl.codeSize)]) ++ [(257, sl.codeSize)])
      rw [List.chain'_append]
      refine ⟨hchain1, List.chain'_singleton _, ?_⟩
      intro p hp q hq
      simp only [List.head?_cons, Option.mem_def, Option.some.injEq] at hq
      subst hq
      rw [List.getLast?_concat] at hp
      simp only [Option.mem_def, Option.some.injEq] at hp
      subst hp
      exact Or.inl (le_refl _)
  · intro pre suf heq
    obtain ⟨sp, hl, hInv, _, _⟩ := lzwLoop_ok pre (emit lzwInit 256)
      (fun i hi => hbytes i (by rw [heq]; exact List.mem_append_left _ hi))
      loopInv_startState
    exact ⟨sp, hl, hInv.1⟩
  · intro s idx c hSize hn idxlt hnone hsome
    obtain ⟨h9, h12, h258, hlt, hdisj⟩ := hSize
    have hcs12 : s.codeSize = 12 := by
      have hp11 : (2 : Nat) ^ 11 = 2048 := by norm_num
      by_contra hne2
      have hle : s.codeSize ≤ 11 := by omega
      have : (2 : Nat) ^ s.codeSize ≤ 2 ^ 11 :=
        Nat.pow_le_pow_right (by omega) hle
      omega
    unfold lzwStep1
    rw [if_neg (by omega : ¬ 256 ≤ idx)]
    rw [if_neg (by rw [hnone]; simp :
      ¬ (tableLookup s.added (s.pattern ++ [idx])).isSome = true)]
    split
    · rename_i hx
      rw [hsome] at hx
      exact Option.noConfusion hx
    rename_i code hcode
    have hcc : c = code := by
      rw [hsome] at hcode
      exact Option.some.injEq _ _ ▸ hcode
    rw [if_pos (by omega : s.nextCode + 1 = 4096)]
    rw [if_pos (by rw [hcs12]; norm_num; omega :
      s.nextCode + 1 = 2 ^ s.codeSize)]
    refine ⟨_, rfl, rfl, rfl, rfl, ?_⟩
    rw [hcs12, ← hcc]
  · intro i hi
    have h1 : ¬ 256 ≤ i := by omega
    have hstep : lzwStep1 (emit lzwInit 256) i =
        .ok ⟨9, 258, [], [i], codeBits 9 256, [(256, 9)]⟩ := by
      simp [lzwStep1, tableLookup, emit, lzwInit, h1, hi]
    have hloop : lzwLoop (emit lzwInit 256) [i] =
        .ok ⟨9, 258, [], [i], codeBits 9 256, [(256, 9)]⟩ := by
      simp [lzwLoop, hstep]
    refine ⟨emit (emit ⟨9, 258, [], [i], codeBits 9 256, [(256, 9)]⟩ i) 257,
      ?_, ?_⟩
    · simp only [lzwEncodeState, hloop, tableLookup_single _ i hi]
    · simp [emit]

/-- Witness for `c5_lzw_stream_structure`: the hypotheses are satisfied at
the concrete single-pixel index sequence `[0]`. -/
theorem c5_lzw_stream_structure_witness :
    (([0] : List Nat) ≠ [] ∧ ∀ i ∈ ([0] : List Nat), i < 256) ∧
    ((∃ s, lzwEncodeState [0] = .ok s ∧
      s.emitted.head? = some (256, 9) ∧
      (∃ c pre, tableLookup s.added s.pattern = some c ∧
        s.emitted = pre ++ [(c, s.codeSize), (257, s.codeSize)]) ∧
      List.Chain' WidthStep s.emitted) ∧
    (emit lzwInit 256).nextCode = 258 ∧ (emit lzwInit 256).codeSize = 9 ∧
    (∀ pre suf, ([0] : List Nat) = pre ++ suf →
      ∃ sp, lzwLoop (emit lzwInit 256) pre = .ok sp ∧ SizeInv sp) ∧
    (∀ (s : LZWState) (idx c : Nat), SizeInv s → s.nextCode = 4095 →
      idx < 256 → tableLookup s.added (s.pattern ++ [idx]) = none →
      tableLookup s.added s.pattern = some c →
      ∃ s', lzwStep1 s idx = .ok s' ∧ s'.codeSize = 9 ∧ s'.nextCode = 258 ∧
        s'.added = [] ∧ s'.emitted = s.emitted ++ [(c, 12), (256, 13)]) ∧
    (∀ i, i < 256 → ∃ s, lzwEncodeState [i] = .ok s ∧
      s.emitted = [(256, 9), (i, 9), (257, 9)])) :=
  ⟨⟨by decide, by decide⟩,
   c5_lzw_stream_structure [0] (by decide) (by decide)⟩

/-- Claim C6: decoding the bytes produced by `finish()` with a
standards-compliant GIF reader (modelled from the spec, see `parseGif`)
yields, pixel for pixel, exactly the palette indices the §4.1 quantizer
assigns to each original input pixel, and the centisecond delay of each
frame
round-trips exactly, for (a) a 4×4 solid red frame, (b) an 8×8 two-color
checkerboard, and (c) a 3-frame animation of incrementing solid colors
with distinct delays. -/
theorem c6_roundtrip_scenarios :
    parseGif sessionA.data =
      some (4, 4, [(10, quantizeBuffer solidRedPixels)]) ∧
    parseGif sessionB.data =
      some (8, 8, [(7, quantizeBuffer checkerPixels)]) ∧
    parseGif sessionC.data = some (2, 2,
      [(10, quantizeBuffer (solidGrayPixels 100)),
       (20, quantizeBuffer (solidGrayPixels 110)),
       (30, quantizeBuffer (solidGrayPixels 120))]) :=
  ⟨by decide, by decide, by decide⟩

theorem addFrame_appends (e : Encoder) (pixels : List Nat)
    (w h d : Nat) (fl np : Bool) :
    ∃ t, (addFrame e pixels w h d fl np).1.data = e.data ++ t := by
  rcases hnp : (if np then mapPixelsToPaletteNumpy pixels fl else none) with
    _ | idxs
  · exact ⟨gceBytes d ++ imageDescriptorBytes w h ++ [8],
      by simp [addFrame, hnp, List.append_assoc]⟩
  · rcases hl : lzwEncode idxs with err | lzw
    · exact ⟨gceBytes d ++ imageDescriptorBytes w h ++ [8],
        by simp [addFrame, hnp, hl, List.append_assoc]⟩
    · exact ⟨gceBytes d ++ imageDescriptorBytes w h ++ [8] ++
          subBlocks lzw,
        by simp [addFrame, hnp, hl, List.append_assoc]⟩

theorem runFrames_appends :
    ∀ (calls : List FrameCall) (e : Encoder),
      ∃ t, (runFrames e calls).data = e.data ++ t := by
  intro calls
  induction calls with
  | nil => exact fun e => ⟨[], by simp [runFrames]⟩
  | cons c cs ih =>
    intro e
    obtain ⟨t1, ht1⟩ := addFrame_appends e c.pixels c.width c.height
      c.delay c.is_bgra c.numpyAvailable
    obtain ⟨t2, ht2⟩ := ih
      (addFrame e c.pixels c.width c.height c.delay c.is_bgra
        c.numpyAvailable).1
    refine ⟨t1 ++ t2, ?_⟩
    rw [show runFrames e (c :: cs) =
      runFrames (addFrame e c.pixels c.width c.height c.delay c.is_bgra
        c.numpyAvailable).1 cs from rfl, ht2, ht1, List.append_assoc]

/-- Claim C7: for every session on which `start()` and then `finish()` are
called (with any `add_frame` calls in between), the accumulated output
begins with the six bytes "GIF89a" and ends with the single byte 0x3B, and
the Global Color Table written by `start()` is always exactly 768 bytes:
the 216-entry 6×6×6 cube (channel levels 0, 51, 102, 153, 204, 255)
followed by 40 black entries, regardless of the frames' content. -/
theorem c7_container_frame (w h : Nat) (loop : Int)
    (calls : List FrameCall) (hw : w < 65536) (hh : h < 65536)
    (hloop : loop.toNat < 65536) :
    ((finish (runFrames (start (initEncoder w h loop)) calls)).data).take 6 =
      [71, 73, 70, 56, 57, 97] ∧
    ((finish (runFrames (start (initEncoder w h loop))
      calls)).data).getLast? = some 0x3B ∧
    (((finish (runFrames (start (initEncoder w h loop)) calls)).data).drop
        13).take 768 = paletteBytes ++ blackPad ∧
    (paletteBytes ++ blackPad).length = 768 ∧
    generate_palette.length = 216 := by
  obtain ⟨t, ht⟩ := runFrames_appends calls (start (initEncoder w h loop))
  have hdata : (finish (runFrames (start (initEncoder w h loop))
      calls)).data = startBytes w h loop ++ (t ++ [0x3B]) := by
    simp only [finish, ht]
    simp [start, initEncoder, List.append_assoc]
  refine ⟨?_, ?_, ?_, by decide, by decide⟩
  · rw [hdata]
    rfl
  · rw [hdata, ← List.append_assoc, List.getLast?_concat]
  · rw [hdata]
    have hsplit : startBytes w h loop ++ (t ++ [0x3B]) =
        ([71, 73, 70, 56, 57, 97] ++ pack16 w ++ pack16 h ++
          [0xF7, 0, 0]) ++ ((paletteBytes ++ blackPad) ++
          ((if (0 : Int) ≤ loop then
              [0x21, 0xFF, 0x0B] ++
              [78, 69, 84, 83, 67, 65, 80, 69, 50, 46, 48] ++
              [0x03, 0x01] ++ pack16 loop.toNat ++ [0]
            else []) ++ (t ++ [0x3B]))) := by
      simp [startBytes, List.append_assoc]
    rw [hsplit]
    have h13 : ([71, 73, 70, 56, 57, 97] ++ pack16 w ++ pack16 h ++
        ([0xF7, 0, 0] : List Nat)).length = 13 := by
      simp [pack16]
    rw [show (13 : Nat) = ([71, 73, 70, 56, 57, 97] ++ pack16 w ++
      pack16 h ++ ([0xF7, 0, 0] : List Nat)).length from h13.symm,
      List.drop_left]
    exact List.take_left' (by decide)

/-- Witness for `c7_container_frame`: a started and finished 2×3 session
with loop count 0 and no frames. -/
theorem c7_container_frame_witness :
    ((2 : Nat) < 65536 ∧ (3 : Nat) < 65536 ∧ (0 : Int).toNat < 65536) ∧
    (((finish (runFrames (start (initEncoder 2 3 0)) [])).data).take 6 =
      [71, 73, 70, 56, 57, 97] ∧
    ((finish (runFrames (start (initEncoder 2 3 0)) [])).data).getLast? =
      some 0x3B ∧
    (((finish (runFrames (start (initEncoder 2 3 0)) [])).data).drop
        13).take 768 = paletteBytes ++ blackPad ∧
    (paletteBytes ++ blackPad).length = 768 ∧
    generate_palette.length = 216) :=
  ⟨⟨by decide, by decide, by decide⟩,
   c7_container_frame 2 3 0 [] (by decide) (by decide) (by decide)⟩

end SimpleGif
